import Mathlib

/-!
Verification of the `dwave_networkx` Ising core: the graph builder
(`ising_graph` in `dwave_networkx/generators/ising.py`), the bias color
mapper (`color_map` in `dwave_networkx/drawing/draw_utilities.py`) and the
layout / color-scale logic (`ising_layout`, `draw_ising` in
`dwave_networkx/drawing/ising_layout.py`).

The embedding is shallow: Python dicts become association lists (first key
wins, as dict keys are unique), numeric biases become `Int`, Python values
that can serve as dict keys become `PyKey`, and the networkx graph container
becomes the explicit record `NXGraph` with the nodes / edges / attribute
tables that the source manipulates.  Fallible code returns `Except String`.
-/

/-- A Python value usable as a key in the bias / attribute dictionaries:
an `int`, a `str`, or a `tuple` (whose components, for the inputs the
claims need, are ints).  The source inspects only the outer runtime type
(`type(k) is tuple`, `type(k) is int`). -/
inductive PyKey where
  | int : Int → PyKey
  | str : String → PyKey
  | tup : List Int → PyKey
deriving DecidableEq

/-- An attribute value stored on a node or edge: either a number, or a whole
Python list (which is what `nx.set_node_attributes` stores on every node when
it is handed a list instead of a dict). -/
inductive AttrVal where
  | num : Int → AttrVal
  | listv : List Int → AttrVal
deriving DecidableEq

/-- The `h` argument of `ising_graph`: either a dict `{v: bias}` or a list
`[bias, ...]` (per the docstring, list indices are meant to be the nodes). -/
inductive HParam where
  | dict : List (PyKey × Int) → HParam
  | list : List Int → HParam
deriving DecidableEq

abbrev LDict := List (PyKey × Int)
abbrev QDict := List ((PyKey × PyKey) × Int)
abbrev ExtraMap := List (PyKey × Int)

/-- Python dict lookup on an association list (dict keys are unique, so
first match wins). -/
def dictLookup {K V : Type} [DecidableEq K] : List (K × V) → K → Option V
  | [], _ => none
  | kv :: rest, k => if kv.1 = k then some kv.2 else dictLookup rest k

/-- Boolean list membership (`in` on a Python list / dict key view). -/
def memb {α : Type} [DecidableEq α] (x : α) : List α → Bool
  | [] => false
  | y :: ys => if y = x then true else memb x ys

/-- Store `v` under key `k`: overwrite the existing binding or append. -/
def setAssoc {K V : Type} [DecidableEq K] : List (K × V) → K → V → List (K × V)
  | [], k, v => [(k, v)]
  | kv :: rest, k, v => if kv.1 = k then (k, v) :: rest else kv :: setAssoc rest k v

theorem dictLookup_isSome_iff {K V : Type} [DecidableEq K] (l : List (K × V)) (k : K) :
    (dictLookup l k).isSome = true ↔ ∃ v, (k, v) ∈ l := by
  induction l with
  | nil => simp [dictLookup]
  | cons kv rest ih =>
    obtain ⟨k0, v0⟩ := kv
    simp only [dictLookup]
    by_cases h : k0 = k
    · subst h
      refine ⟨fun _ => ⟨v0, List.mem_cons_self _ _⟩, fun _ => ?_⟩
      simp
    · simp only [if_neg h, ih, List.mem_cons, Prod.mk.injEq]
      constructor
      · rintro ⟨v, hv⟩; exact ⟨v, Or.inr hv⟩
      · rintro ⟨v, ⟨hk, _⟩ | hv⟩
        · exact absurd hk.symm h
        · exact ⟨v, hv⟩

theorem memb_iff {α : Type} [DecidableEq α] (x : α) (l : List α) :
    memb x l = true ↔ x ∈ l := by
  induction l with
  | nil => simp [memb]
  | cons y ys ih =>
    simp only [memb]
    by_cases h : y = x
    · subst h; simp
    · simp [if_neg h, ih, Ne.symm h]

/-- The networkx graph as `ising_graph` uses it: an insertion-ordered node
list, an edge list holding one stored orientation per undirected edge, and
the node / edge attribute tables (keyed by attribute name together with the
node, resp. the stored orientation of the edge). -/
structure NXGraph where
  nodes : List PyKey
  edges : List (PyKey × PyKey)
  nodeAttrs : List ((String × PyKey) × AttrVal)
  edgeAttrs : List ((String × (PyKey × PyKey)) × AttrVal)
deriving DecidableEq

namespace NXGraph

/-- `nx.empty_graph(0, create_using)`: a graph with no nodes and no edges. -/
def empty0 : NXGraph := ⟨[], [], [], []⟩

def hasNode (G : NXGraph) (v : PyKey) : Bool := memb v G.nodes

/-- Undirected edge membership: networkx records adjacency symmetrically. -/
def hasEdge (G : NXGraph) (u v : PyKey) : Bool :=
  memb (u, v) G.edges || memb (v, u) G.edges

def addNode (G : NXGraph) (v : PyKey) : NXGraph :=
  if G.hasNode v then G else { G with nodes := G.nodes ++ [v] }

def addNodesFrom (G : NXGraph) (vs : List PyKey) : NXGraph :=
  vs.foldl addNode G

/-- `G.add_edge(u, v)`: missing endpoints are added as nodes, then the edge
is stored (once; both orientations denote the same undirected edge). -/
def addEdge (G : NXGraph) (u v : PyKey) : NXGraph :=
  let G := G.addNode u
  let G := G.addNode v
  if G.hasEdge u v then G else { G with edges := G.edges ++ [(u, v)] }

def addEdgesFrom (G : NXGraph) (es : List (PyKey × PyKey)) : NXGraph :=
  es.foldl (fun G e => G.addEdge e.1 e.2) G

/-- `G.nodes[n][name] = value` for a node already in the graph. -/
def setNodeAttr (G : NXGraph) (v : PyKey) (name : String) (val : AttrVal) : NXGraph :=
  { G with nodeAttrs := setAssoc G.nodeAttrs (name, v) val }

/-- `G[u][v][name] = value`: the attribute lands on the stored orientation of
the undirected edge; a missing edge is skipped (`KeyError` is swallowed by
`nx.set_edge_attributes`). -/
def setEdgeAttr (G : NXGraph) (u v : PyKey) (name : String) (val : AttrVal) : NXGraph :=
  if memb (u, v) G.edges then
    { G with edgeAttrs := setAssoc G.edgeAttrs (name, (u, v)) val }
  else if memb (v, u) G.edges then
    { G with edgeAttrs := setAssoc G.edgeAttrs (name, (v, u)) val }
  else G

def getNodeAttr (G : NXGraph) (v : PyKey) (name : String) : Option AttrVal :=
  dictLookup G.nodeAttrs (name, v)

def getEdgeAttr (G : NXGraph) (u v : PyKey) (name : String) : Option AttrVal :=
  match dictLookup G.edgeAttrs (name, (u, v)) with
  | some a => some a
  | none => dictLookup G.edgeAttrs (name, (v, u))

end NXGraph

/-- Iterating the `h` argument, as `H.add_nodes_from(h)` does: a dict yields
its keys, a list yields its elements (the bias values themselves). -/
def hIter : HParam → List PyKey
  | .dict d => d.map (·.1)
  | .list l => l.map PyKey.int

/-- `nx.set_node_attributes(H, h, name='bias')`: a dict sets the value per
key (absent nodes skipped); a non-dict (`AttributeError` on `.items`) is
stored whole as the attribute of every node. -/
def setNodeBiases (H : NXGraph) : HParam → NXGraph
  | .dict d =>
      d.foldl (fun G kv =>
        if G.hasNode kv.1 then G.setNodeAttr kv.1 "bias" (.num kv.2) else G) H
  | .list l =>
      H.nodes.foldl (fun G n => G.setNodeAttr n "bias" (.listv l)) H

/-- `nx.set_edge_attributes(H, J, name='bias')`: per (u, v) key, set the
edge attribute, skipping pairs that are not edges of `H`. -/
def setEdgeBiases (H : NXGraph) (J : QDict) : NXGraph :=
  J.foldl (fun G kv => G.setEdgeAttr kv.1.1 kv.1.2 "bias" (.num kv.2)) H

def PyKey.isTup : PyKey → Bool
  | .tup _ => true
  | _ => false

def PyKey.isInt : PyKey → Bool
  | .int _ => true
  | _ => false

/-- The `ValueError` message raised for a mixed-key keyword attribute map
(a fixed string; the offending attribute name is not part of it). -/
def attrKeysErrorMsg : String :=
  "Dictionaries of attributes must be keyworded strictly with nodes or edges"

/-- The `ValueError` raised by unpacking a too-short tuple key. -/
def unpackFewErrorMsg : String := "ValueError: not enough values to unpack"

/-- The `ValueError` raised by unpacking a too-long tuple key. -/
def unpackManyErrorMsg : String := "ValueError: too many values to unpack"

/-- The `TypeError` raised by unpacking a non-sequence key (unreachable from
`ising_graph`, whose all-tuple guard precedes this call). -/
def unpackNonSeqErrorMsg : String := "TypeError: cannot unpack non-sequence"

/-- `nx.set_edge_attributes(H, arg_dict, name)` on a non-multigraph:
iterates `for (u, v), value in values.items()` under a `try/except
AttributeError` only, so a pair key addresses the edge between its two (int)
endpoints (skipped via the swallowed `KeyError` when the edge is absent),
while a tuple key of any other arity raises an uncaught `ValueError` from
the tuple unpacking, aborting the build.  Non-tuple keys cannot reach this
call from `ising_graph` (its all-tuple guard runs first); they are modelled
as the unpacking `TypeError`. -/
def setEdgeAttrsNamed (H : NXGraph) (name : String) : ExtraMap → Except String NXGraph
  | [] => .ok H
  | kv :: rest =>
    match kv.1 with
    | .tup [a, b] =>
        setEdgeAttrsNamed (H.setEdgeAttr (.int a) (.int b) name (.num kv.2)) name rest
    | .tup [] => .error unpackFewErrorMsg
    | .tup [_] => .error unpackFewErrorMsg
    | .tup _ => .error unpackManyErrorMsg
    | _ => .error unpackNonSeqErrorMsg

/-- `nx.set_node_attributes(H, arg_dict, name)` for an all-int-key map. -/
def setNodeAttrsNamed (H : NXGraph) (name : String) (m : ExtraMap) : NXGraph :=
  m.foldl (fun G kv =>
    if G.hasNode kv.1 then G.setNodeAttr kv.1 name (.num kv.2) else G) H

/-- The base construction of `ising_graph` before the keyword-attribute
loop: empty graph, nodes from `h`, edges from the keys of `J`, then the
`bias` edge and node attributes. -/
def buildBase (h : HParam) (J : QDict) : NXGraph :=
  let H := NXGraph.empty0
  let H := H.addNodesFrom (hIter h)
  let H := H.addEdgesFrom (J.map (·.1))
  let H := setEdgeBiases H J
  let H := setNodeBiases H h
  H

/-- The `for name, arg_dict in kwargs.items()` loop of `ising_graph`:
all-tuple keys → edge attributes, else all-int keys → node attributes, else
`ValueError`. -/
def isingLoop (H : NXGraph) : List (String × ExtraMap) → Except String NXGraph
  | [] => .ok H
  | (name, m) :: rest =>
      if m.all (fun kv => kv.1.isTup) then
        match setEdgeAttrsNamed H name m with
        | .ok H2 => isingLoop H2 rest
        | .error e => .error e
      else if m.all (fun kv => kv.1.isInt) then
        isingLoop (setNodeAttrsNamed H name m) rest
      else .error attrKeysErrorMsg

/-- `ising_graph(h, J, **kwargs)` from `generators/ising.py`. -/
def ising_graph (h : HParam) (J : QDict) (kwargs : List (String × ExtraMap)) :
    Except String NXGraph :=
  isingLoop (buildBase h J) kwargs

/-- The inner `edge_color(u, v)` of `color_map`: start from 0, add the
`(u, v)` entry of the quadratic dict if present, then the `(v, u)` entry if
present. -/
def edge_color (quadratic_biases : QDict) (u v : PyKey) : Int :=
  let c : Int := 0
  let c := if (dictLookup quadratic_biases (u, v)).isSome then
    c + (dictLookup quadratic_biases (u, v)).getD 0 else c
  let c := if (dictLookup quadratic_biases (v, u)).isSome then
    c + (dictLookup quadratic_biases (v, u)).getD 0 else c
  c

/-- The inner `node_color(v)` of `color_map`: start from 0, add the linear
bias of `v` if present, then the `(v, v)` self-loop entry if present. -/
def node_color (linear_biases : LDict) (quadratic_biases : QDict) (v : PyKey) : Int :=
  let c : Int := 0
  let c := if (dictLookup linear_biases v).isSome then
    c + (dictLookup linear_biases v).getD 0 else c
  let c := if (dictLookup quadratic_biases (v, v)).isSome then
    c + (dictLookup quadratic_biases (v, v)).getD 0 else c
  c

/-- `color_map(nodelist, edgelist, linear_biases, quadratic_biases)` from
`drawing/draw_utilities.py`. -/
def color_map (nodelist : List PyKey) (edgelist : List (PyKey × PyKey))
    (linear_biases : LDict) (quadratic_biases : QDict) : List Int × List Int :=
  (nodelist.map (node_color linear_biases quadratic_biases),
   edgelist.map (fun e => edge_color quadratic_biases e.1 e.2))

example :
    color_map [PyKey.int 0, PyKey.int 1, PyKey.int 2]
      [(PyKey.int 0, PyKey.int 1), (PyKey.int 1, PyKey.int 2), (PyKey.int 2, PyKey.int 0)]
      [(PyKey.int 0, -1), (PyKey.int 1, -2), (PyKey.int 2, 0)]
      [((PyKey.int 0, PyKey.int 1), -1), ((PyKey.int 1, PyKey.int 2), -1),
        ((PyKey.int 2, PyKey.int 0), -1)] = ([-1, -2, 0], [-1, -1, -1]) := by decide

/-- The message of the `AttributeError` raised by `ising_layout` on its
fallback path: the source calls `nx.random_layou(H)`, and the `networkx`
module has no attribute of that name (a typo for `random_layout`). -/
def layoutErrorMsg : String :=
  "AttributeError: module networkx has no attribute random_layou"

/-- `set(['x','y']).issubset(dat)` for the attribute dict of node `v`. -/
def hasXY (H : NXGraph) (v : PyKey) : Bool :=
  (H.getNodeAttr v "x").isSome && (H.getNodeAttr v "y").isSome

/-- `ising_layout(H)` from `drawing/ising_layout.py`: when every node has
`x` and `y` attributes, the position dict is built from them; otherwise the
source calls `nx.random_layou(H)`, which raises `AttributeError`. -/
def ising_layout (H : NXGraph) : Except String (List (PyKey × (AttrVal × AttrVal))) :=
  if H.nodes.all (fun v => hasXY H v) then
    .ok (H.nodes.map (fun v =>
      (v, ((H.getNodeAttr v "x").getD (.num 0), (H.getNodeAttr v "y").getD (.num 0)))))
  else
    .error layoutErrorMsg

/-- Python `max` over a list: raises `ValueError` on an empty sequence. -/
def pyMax : List Int → Except String Int
  | [] => .error "max() arg is an empty sequence"
  | x :: xs => .ok (xs.foldl max x)

/-- The bias-dependent part of `draw_ising(H, ...)` from
`drawing/ising_layout.py`: default the node / edge lists from the graph,
compute the colors with `color_map`, and fill in every color-scale bound the
caller left unset with `±vmag`, `vmag = max(max(|node_color|),
max(|edge_color|))`.  The subsequent rendering (`draw`, colorbar) is the
external plotting collaborator and consumes the returned bounds.  Without
biases the bounds pass through unchanged. -/
def draw_ising (H : NXGraph) (linear_biases : LDict) (quadratic_biases : QDict)
    (nodelist : Option (List PyKey)) (edgelist : Option (List (PyKey × PyKey)))
    (vmin vmax edge_vmin edge_vmax : Option Int) :
    Except String (Option Int × Option Int × Option Int × Option Int) :=
  if linear_biases ≠ [] ∨ quadratic_biases ≠ [] then
    let nodelist := nodelist.getD H.nodes
    let edgelist := edgelist.getD H.edges
    let colors := color_map nodelist edgelist linear_biases quadratic_biases
    match pyMax (colors.1.map (fun c => |c|)) with
    | .error e => .error e
    | .ok nmax =>
      match pyMax (colors.2.map (fun c => |c|)) with
      | .error e => .error e
      | .ok emax =>
        let vmag := max nmax emax
        let vmin := if vmin = none then some (-1 * vmag) else vmin
        let vmax := if vmax = none then some vmag else vmax
        let edge_vmin := if edge_vmin = none then some (-1 * vmag) else edge_vmin
        let edge_vmax := if edge_vmax = none then some vmag else edge_vmax
        .ok (vmin, vmax, edge_vmin, edge_vmax)
  else
    .ok (vmin, vmax, edge_vmin, edge_vmax)

/-!
State-threaded variants for the frame / purity claim: every primitive
operation the source applies to an input container is made explicit as a
state transformer returning the container it leaves behind, so that "the
inputs are not mutated" is the provable statement that the final containers
equal the initial ones.
-/

/-- Python `k in d` on a dict: reads the dict, returns it unchanged. -/
def dictContainsSt {K V : Type} [DecidableEq K] (d : List (K × V)) (k : K) :
    Bool × List (K × V) :=
  ((dictLookup d k).isSome, d)

/-- Python `d[k]` (only reached under a containment guard in the source):
reads the dict, returns it unchanged. -/
def dictGetSt {K : Type} [DecidableEq K] (d : List (K × Int)) (k : K) :
    Int × List (K × Int) :=
  ((dictLookup d k).getD 0, d)

/-- Iterating a Python container (`for x in c`, `.items()`, comprehension):
yields the items and returns the container unchanged. -/
def iterSt {α : Type} (c : List α) : List α × List α := (c, c)

/-- `edge_color` with the quadratic dict threaded through each access. -/
def edge_colorSt (quadratic_biases : QDict) (u v : PyKey) : Int × QDict :=
  let c : Int := 0
  let r1 := dictContainsSt quadratic_biases (u, v)
  let s1 := if r1.1 then
      let g := dictGetSt r1.2 (u, v); (c + g.1, g.2)
    else (c, r1.2)
  let r2 := dictContainsSt s1.2 (v, u)
  if r2.1 then
    let g := dictGetSt r2.2 (v, u); (s1.1 + g.1, g.2)
  else (s1.1, r2.2)

/-- `node_color` with both bias dicts threaded through each access. -/
def node_colorSt (linear_biases : LDict) (quadratic_biases : QDict) (v : PyKey) :
    Int × (LDict × QDict) :=
  let c : Int := 0
  let r1 := dictContainsSt linear_biases v
  let s1 := if r1.1 then
      let g := dictGetSt r1.2 v; (c + g.1, g.2)
    else (c, r1.2)
  let r2 := dictContainsSt quadratic_biases (v, v)
  if r2.1 then
    let g := dictGetSt r2.2 (v, v); (s1.1 + g.1, (s1.2, g.2))
  else (s1.1, (s1.2, r2.2))

/-- A list comprehension over `xs` whose body threads a state. -/
def mapSt {σ α β : Type} (f : σ → α → β × σ) : σ → List α → List β × σ
  | s, [] => ([], s)
  | s, x :: xs =>
    let r := f s x
    let rs := mapSt f r.2 xs
    (r.1 :: rs.1, rs.2)

/-- `color_map` with all four inputs threaded through every access the
source makes, returned alongside the result. -/
def color_mapSt (nodelist : List PyKey) (edgelist : List (PyKey × PyKey))
    (linear_biases : LDict) (quadratic_biases : QDict) :
    (List Int × List Int) ×
      (List PyKey × List (PyKey × PyKey) × LDict × QDict) :=
  let ni := iterSt nodelist
  let nrun := mapSt (fun (s : LDict × QDict) v => node_colorSt s.1 s.2 v)
    (linear_biases, quadratic_biases) ni.1
  let ei := iterSt edgelist
  let erun := mapSt (fun (s : LDict × QDict) e =>
      let r := edge_colorSt s.2 e.1 e.2; (r.1, (s.1, r.2))) nrun.2 ei.1
  ((nrun.1, erun.1), (ni.2, ei.2, erun.2.1, erun.2.2))

/-- Iterating `h` to add nodes, returning `h` unchanged. -/
def hIterSt : HParam → List PyKey × HParam
  | .dict d => let it := iterSt d; (it.1.map (·.1), .dict it.2)
  | .list l => let it := iterSt l; (it.1.map PyKey.int, .list it.2)

/-- `nx.set_node_attributes(H, h, name='bias')` with `h` threaded. -/
def setNodeBiasesSt (H : NXGraph) : HParam → NXGraph × HParam
  | .dict d =>
      let it := iterSt d
      (it.1.foldl (fun G kv =>
        if G.hasNode kv.1 then G.setNodeAttr kv.1 "bias" (.num kv.2) else G) H,
       .dict it.2)
  | .list l =>
      (H.nodes.foldl (fun G n => G.setNodeAttr n "bias" (.listv l)) H, .list l)

/-- The keyword-attribute loop with the attribute maps threaded. -/
def isingLoopSt (H : NXGraph) : List (String × ExtraMap) →
    Except String NXGraph × List (String × ExtraMap)
  | [] => (.ok H, [])
  | (name, m) :: rest =>
      let it := iterSt m
      if it.1.all (fun kv => kv.1.isTup) then
        let it2 := iterSt it.2
        match setEdgeAttrsNamed H name it2.1 with
        | .ok H2 =>
          let r := isingLoopSt H2 rest
          (r.1, (name, it2.2) :: r.2)
        | .error e => (.error e, (name, it2.2) :: rest)
      else if it.1.all (fun kv => kv.1.isInt) then
        let it2 := iterSt it.2
        let r := isingLoopSt (setNodeAttrsNamed H name it2.1) rest
        (r.1, (name, it2.2) :: r.2)
      else (.error attrKeysErrorMsg, (name, it.2) :: rest)

/-- `ising_graph` with `h`, `J` and the keyword maps threaded through every
access the source makes, returned alongside the result. -/
def ising_graphSt (h : HParam) (J : QDict) (kwargs : List (String × ExtraMap)) :
    Except String NXGraph × (HParam × QDict × List (String × ExtraMap)) :=
  let H := NXGraph.empty0
  let hi := hIterSt h
  let H := H.addNodesFrom hi.1
  let ji := iterSt J
  let H := H.addEdgesFrom (ji.1.map (·.1))
  let ji2 := iterSt ji.2
  let H := setEdgeBiases H ji2.1
  let hb := setNodeBiasesSt H hi.2
  let r := isingLoopSt hb.1 kwargs
  (r.1, (hb.2, ji2.2, r.2))

/-! Structural lemmas about the graph container operations. -/

theorem NXGraph.edges_addNode (G : NXGraph) (v : PyKey) :
    (G.addNode v).edges = G.edges := by
  unfold NXGraph.addNode; split <;> rfl

theorem NXGraph.mem_addNode (G : NXGraph) (v w : PyKey) :
    w ∈ (G.addNode v).nodes ↔ w ∈ G.nodes ∨ w = v := by
  unfold NXGraph.addNode
  by_cases h : G.hasNode v = true
  · rw [if_pos h]
    have hv : v ∈ G.nodes := (memb_iff _ _).mp h
    constructor
    · exact Or.inl
    · rintro (hw | rfl)
      · exact hw
      · exact hv
  · rw [if_neg h]
    simp [List.mem_append]

theorem NXGraph.hasEdge_iff (G : NXGraph) (a b : PyKey) :
    G.hasEdge a b = true ↔ (a, b) ∈ G.edges ∨ (b, a) ∈ G.edges := by
  simp [NXGraph.hasEdge, Bool.or_eq_true, memb_iff]

theorem NXGraph.nodes_addEdge (G : NXGraph) (u v : PyKey) :
    (G.addEdge u v).nodes = ((G.addNode u).addNode v).nodes := by
  unfold NXGraph.addEdge
  dsimp only
  split <;> rfl

theorem NXGraph.mem_nodes_addEdge (G : NXGraph) (u v w : PyKey) :
    w ∈ (G.addEdge u v).nodes ↔ w ∈ G.nodes ∨ w = u ∨ w = v := by
  rw [NXGraph.nodes_addEdge, NXGraph.mem_addNode, NXGraph.mem_addNode, or_assoc]

theorem NXGraph.hasEdge_addEdge (G : NXGraph) (u v a b : PyKey) :
    (G.addEdge u v).hasEdge a b = true ↔
      G.hasEdge a b = true ∨ (a, b) = (u, v) ∨ (b, a) = (u, v) := by
  have hedges : ((G.addNode u).addNode v).edges = G.edges := by
    rw [NXGraph.edges_addNode, NXGraph.edges_addNode]
  unfold NXGraph.addEdge
  dsimp only
  split
  · rename_i hdup
    rw [NXGraph.hasEdge_iff, hedges] at hdup
    rw [NXGraph.hasEdge_iff, hedges, NXGraph.hasEdge_iff]
    constructor
    · exact Or.inl
    · rintro (hab | hpair | hpair)
      · exact hab
      · rw [Prod.ext_iff] at hpair
        obtain ⟨rfl, rfl⟩ := hpair
        exact hdup
      · rw [Prod.ext_iff] at hpair
        obtain ⟨rfl, rfl⟩ := hpair
        exact hdup.symm
  · rw [NXGraph.hasEdge_iff, NXGraph.hasEdge_iff]
    dsimp only
    rw [hedges]
    simp only [List.mem_append, List.mem_singleton]
    tauto

theorem NXGraph.mem_addNodesFrom (G : NXGraph) (vs : List PyKey) (w : PyKey) :
    w ∈ (G.addNodesFrom vs).nodes ↔ w ∈ G.nodes ∨ w ∈ vs := by
  induction vs generalizing G with
  | nil => simp [NXGraph.addNodesFrom]
  | cons v vs ih =>
    show w ∈ ((G.addNode v).addNodesFrom vs).nodes ↔ _
    rw [ih, NXGraph.mem_addNode]
    simp only [List.mem_cons]
    tauto

theorem NXGraph.edges_addNodesFrom (G : NXGraph) (vs : List PyKey) :
    (G.addNodesFrom vs).edges = G.edges := by
  induction vs generalizing G with
  | nil => rfl
  | cons v vs ih =>
    show ((G.addNode v).addNodesFrom vs).edges = _
    rw [ih, NXGraph.edges_addNode]

theorem NXGraph.mem_nodes_addEdgesFrom (G : NXGraph) (es : List (PyKey × PyKey)) (w : PyKey) :
    w ∈ (G.addEdgesFrom es).nodes ↔ w ∈ G.nodes ∨ ∃ e ∈ es, w = e.1 ∨ w = e.2 := by
  induction es generalizing G with
  | nil => simp [NXGraph.addEdgesFrom]
  | cons e es ih =>
    show w ∈ ((G.addEdge e.1 e.2).addEdgesFrom es).nodes ↔ _
    rw [ih, NXGraph.mem_nodes_addEdge]
    simp only [List.mem_cons]
    constructor
    · rintro ((hG | rfl | rfl) | ⟨f, hf, hw⟩)
      · exact Or.inl hG
      · exact Or.inr ⟨e, Or.inl rfl, Or.inl rfl⟩
      · exact Or.inr ⟨e, Or.inl rfl, Or.inr rfl⟩
      · exact Or.inr ⟨f, Or.inr hf, hw⟩
    · rintro (hG | ⟨f, (rfl | hf), hw⟩)
      · exact Or.inl (Or.inl hG)
      · exact Or.inl (Or.inr hw)
      · exact Or.inr ⟨f, hf, hw⟩

theorem NXGraph.hasEdge_addEdgesFrom (G : NXGraph) (es : List (PyKey × PyKey)) (a b : PyKey) :
    (G.addEdgesFrom es).hasEdge a b = true ↔
      G.hasEdge a b = true ∨ (a, b) ∈ es ∨ (b, a) ∈ es := by
  induction es generalizing G with
  | nil => simp [NXGraph.addEdgesFrom]
  | cons e es ih =>
    show ((G.addEdge e.1 e.2).addEdgesFrom es).hasEdge a b = true ↔ _
    rw [ih, NXGraph.hasEdge_addEdge]
    simp only [List.mem_cons, Prod.mk.eta]
    tauto

theorem NXGraph.nodes_setEdgeAttr (G : NXGraph) (u v : PyKey) (n : String) (a : AttrVal) :
    (G.setEdgeAttr u v n a).nodes = G.nodes := by
  unfold NXGraph.setEdgeAttr
  split
  · rfl
  · split <;> rfl

theorem NXGraph.edges_setEdgeAttr (G : NXGraph) (u v : PyKey) (n : String) (a : AttrVal) :
    (G.setEdgeAttr u v n a).edges = G.edges := by
  unfold NXGraph.setEdgeAttr
  split
  · rfl
  · split <;> rfl

theorem nodes_edges_foldl {α : Type} (f : NXGraph → α → NXGraph)
    (hf : ∀ G x, (f G x).nodes = G.nodes ∧ (f G x).edges = G.edges) :
    ∀ (l : List α) (G : NXGraph),
      (l.foldl f G).nodes = G.nodes ∧ (l.foldl f G).edges = G.edges
  | [], _ => ⟨rfl, rfl⟩
  | x :: xs, G => by
    rw [List.foldl_cons]
    obtain ⟨h1, h2⟩ := nodes_edges_foldl f hf xs (f G x)
    exact ⟨h1.trans (hf G x).1, h2.trans (hf G x).2⟩

theorem nodes_edges_setEdgeBiases (H : NXGraph) (J : QDict) :
    (setEdgeBiases H J).nodes = H.nodes ∧ (setEdgeBiases H J).edges = H.edges := by
  unfold setEdgeBiases
  exact nodes_edges_foldl
    (fun G kv => G.setEdgeAttr kv.1.1 kv.1.2 "bias" (.num kv.2))
    (fun G kv => ⟨NXGraph.nodes_setEdgeAttr G kv.1.1 kv.1.2 "bias" (.num kv.2),
                  NXGraph.edges_setEdgeAttr G kv.1.1 kv.1.2 "bias" (.num kv.2)⟩) J H

theorem nodes_edges_setNodeBiases (H : NXGraph) (h : HParam) :
    (setNodeBiases H h).nodes = H.nodes ∧ (setNodeBiases H h).edges = H.edges := by
  cases h with
  | dict d =>
    unfold setNodeBiases
    exact nodes_edges_foldl
      (fun G kv => if G.hasNode kv.1 then G.setNodeAttr kv.1 "bias" (.num kv.2) else G)
      (fun G kv => by
        by_cases hn : G.hasNode kv.1 = true
        · simp only [hn, if_true]
          exact ⟨rfl, rfl⟩
        · simp only [hn, if_false]
          exact ⟨rfl, rfl⟩) d H
  | list l =>
    unfold setNodeBiases
    exact nodes_edges_foldl
      (fun G n => G.setNodeAttr n "bias" (.listv l))
      (fun G n => ⟨rfl, rfl⟩) H.nodes H

theorem mem_buildBase_nodes (h : HParam) (J : QDict) (w : PyKey) :
    w ∈ (buildBase h J).nodes ↔ w ∈ hIter h ∨ ∃ e ∈ J, w = e.1.1 ∨ w = e.1.2 := by
  unfold buildBase
  dsimp only
  rw [(nodes_edges_setNodeBiases _ _).1, (nodes_edges_setEdgeBiases _ _).1,
    NXGraph.mem_nodes_addEdgesFrom, NXGraph.mem_addNodesFrom]
  simp only [NXGraph.empty0, List.not_mem_nil, false_or, List.mem_map]
  constructor
  · rintro (hh | ⟨e, ⟨f, hf, rfl⟩, hw⟩)
    · exact Or.inl hh
    · exact Or.inr ⟨f, hf, hw⟩
  · rintro (hh | ⟨f, hf, hw⟩)
    · exact Or.inl hh
    · exact Or.inr ⟨f.1, ⟨f, hf, rfl⟩, hw⟩

theorem hasEdge_buildBase (h : HParam) (J : QDict) (a b : PyKey) :
    (buildBase h J).hasEdge a b = true ↔
      (∃ e ∈ J, e.1 = (a, b)) ∨ (∃ e ∈ J, e.1 = (b, a)) := by
  unfold buildBase
  dsimp only
  rw [NXGraph.hasEdge_iff, (nodes_edges_setNodeBiases _ _).2, (nodes_edges_setEdgeBiases _ _).2,
    ← NXGraph.hasEdge_iff, NXGraph.hasEdge_addEdgesFrom]
  have hempty : (NXGraph.empty0.addNodesFrom (hIter h)).hasEdge a b = false := by
    rw [← Bool.not_eq_true, NXGraph.hasEdge_iff]
    rw [NXGraph.edges_addNodesFrom]
    simp [NXGraph.empty0]
  rw [hempty]
  simp only [Bool.false_eq_true, false_or, List.mem_map]

/-! Lemmas about the color mapper and the color-scale computation. -/

theorem node_color_getD (h : LDict) (q : QDict) (v : PyKey) :
    node_color h q v = (dictLookup h v).getD 0 + (dictLookup q (v, v)).getD 0 := by
  unfold node_color
  cases hl : dictLookup h v <;> cases hq : dictLookup q (v, v) <;> simp [hl, hq]

theorem edge_color_getD (q : QDict) (u v : PyKey) :
    edge_color q u v = (dictLookup q (u, v)).getD 0 + (dictLookup q (v, u)).getD 0 := by
  unfold edge_color
  cases h1 : dictLookup q (u, v) <;> cases h2 : dictLookup q (v, u) <;> simp [h1, h2]

theorem dictLookup_filter {K V : Type} [DecidableEq K] (p : K × V → Bool)
    (l : List (K × V)) (k : K) (hp : ∀ v : V, p (k, v) = true) :
    dictLookup (l.filter p) k = dictLookup l k := by
  induction l with
  | nil => rfl
  | cons kv rest ih =>
    obtain ⟨k0, v0⟩ := kv
    by_cases hk : k0 = k
    · subst hk
      rw [List.filter_cons, hp v0]
      simp [dictLookup]
    · rw [List.filter_cons]
      by_cases hpkv : p (k0, v0) = true
      · rw [if_pos hpkv]
        simp only [dictLookup, if_neg hk]
        exact ih
      · rw [if_neg hpkv, ih]
        simp [dictLookup, if_neg hk]

theorem edge_color_filter_selfloops (q : QDict) (u v : PyKey) (huv : u ≠ v) :
    edge_color (q.filter (fun e => decide (e.1.1 ≠ e.1.2))) u v = edge_color q u v := by
  rw [edge_color_getD, edge_color_getD,
    dictLookup_filter _ _ _ (fun b => by simp [huv]),
    dictLookup_filter _ _ _ (fun b => by simp [Ne.symm huv])]

theorem pyMax_le (x : Int) (xs : List Int) :
    ∀ y ∈ x :: xs, y ≤ xs.foldl max x := by
  induction xs generalizing x with
  | nil => simp
  | cons z zs ih =>
    intro y hy
    rw [List.foldl_cons]
    rcases List.mem_cons.mp hy with rfl | hy2
    · exact le_trans (le_max_left y z) (ih (max y z) _ (List.mem_cons_self _ _))
    · rcases List.mem_cons.mp hy2 with rfl | hy3
      · exact le_trans (le_max_right x y) (ih (max x y) _ (List.mem_cons_self _ _))
      · exact ih (max x z) y (List.mem_cons_of_mem _ hy3)

theorem pyMax_mem (x : Int) (xs : List Int) : xs.foldl max x ∈ x :: xs := by
  induction xs generalizing x with
  | nil => simp
  | cons z zs ih =>
    rw [List.foldl_cons]
    rcases List.mem_cons.mp (ih (max x z)) with hm | hm
    · rcases max_choice x z with h | h
      · rw [hm, h]; exact List.mem_cons_self _ _
      · rw [hm, h]; exact List.mem_cons_of_mem _ (List.mem_cons_self _ _)
    · exact List.mem_cons_of_mem _ (List.mem_cons_of_mem _ hm)

/-! The state-threaded embeddings return their inputs unchanged and compute
the same values as the direct embeddings. -/

theorem node_colorSt_eq (h : LDict) (q : QDict) (v : PyKey) :
    node_colorSt h q v = (node_color h q v, (h, q)) := by
  unfold node_colorSt node_color dictContainsSt dictGetSt
  by_cases h1 : (dictLookup h v).isSome = true <;>
    by_cases h2 : (dictLookup q (v, v)).isSome = true <;>
      simp [h1, h2]

theorem edge_colorSt_eq (q : QDict) (u v : PyKey) :
    edge_colorSt q u v = (edge_color q u v, q) := by
  unfold edge_colorSt edge_color dictContainsSt dictGetSt
  by_cases h1 : (dictLookup q (u, v)).isSome = true <;>
    by_cases h2 : (dictLookup q (v, u)).isSome = true <;>
      simp [h1, h2]

theorem mapSt_frame {σ α β : Type} (f : σ → α → β × σ)
    (hf : ∀ s x, (f s x).2 = s) (s : σ) (xs : List α) :
    mapSt f s xs = (xs.map (fun x => (f s x).1), s) := by
  induction xs with
  | nil => rfl
  | cons x xs ih =>
    unfold mapSt
    dsimp only
    rw [hf s x, ih]
    simp

theorem color_mapSt_eq (nl : List PyKey) (el : List (PyKey × PyKey))
    (h : LDict) (q : QDict) :
    color_mapSt nl el h q = (color_map nl el h q, (nl, el, h, q)) := by
  unfold color_mapSt color_map iterSt
  dsimp only
  rw [mapSt_frame _ (fun s v => by rw [node_colorSt_eq]) (h, q) nl]
  rw [mapSt_frame _ (fun s e => by dsimp only; rw [edge_colorSt_eq]) (h, q) el]
  dsimp only
  congr 1
  congr 1
  · exact List.map_congr_left (fun v _ => by rw [node_colorSt_eq])
  · exact List.map_congr_left (fun e _ => by rw [edge_colorSt_eq])

theorem hIterSt_eq (h : HParam) : hIterSt h = (hIter h, h) := by
  cases h <;> rfl

theorem setNodeBiasesSt_eq (H : NXGraph) (h : HParam) :
    setNodeBiasesSt H h = (setNodeBiases H h, h) := by
  cases h <;> rfl

theorem isingLoopSt_eq (H : NXGraph) (kwargs : List (String × ExtraMap)) :
    isingLoopSt H kwargs = (isingLoop H kwargs, kwargs) := by
  induction kwargs generalizing H with
  | nil => rfl
  | cons e rest ih =>
    obtain ⟨name, m⟩ := e
    unfold isingLoopSt isingLoop iterSt
    dsimp only
    by_cases h1 : (m.all fun kv => kv.1.isTup) = true
    · cases hse : setEdgeAttrsNamed H name m with
      | ok H2 => simp [h1, hse, ih]
      | error e2 => simp [h1, hse]
    · by_cases h2 : (m.all fun kv => kv.1.isInt) = true
      · simp [h1, h2, ih]
      · simp [h1, h2]

theorem ising_graphSt_eq (h : HParam) (J : QDict) (kwargs : List (String × ExtraMap)) :
    ising_graphSt h J kwargs = (ising_graph h J kwargs, (h, J, kwargs)) := by
  unfold ising_graphSt ising_graph buildBase iterSt
  dsimp only
  rw [hIterSt_eq, setNodeBiasesSt_eq, isingLoopSt_eq]

theorem setEdgeAttrsNamed_ok_of_pairs (name : String) :
    ∀ (m : ExtraMap) (H : NXGraph),
      (∀ kv ∈ m, ∃ a b : Int, kv.1 = PyKey.tup [a, b]) →
      ∃ G, setEdgeAttrsNamed H name m = Except.ok G
  | [], H, _ => ⟨H, rfl⟩
  | (k, v) :: rest, H, hp => by
    obtain ⟨a, b, hab⟩ := hp (k, v) (List.mem_cons_self _ _)
    dsimp only at hab
    subst hab
    exact setEdgeAttrsNamed_ok_of_pairs name rest
      (H.setEdgeAttr (.int a) (.int b) name (.num v))
      (fun kv h => hp kv (List.mem_cons_of_mem _ h))

theorem setEdgeAttrsNamed_error_of_nonpair (name : String) :
    ∀ (m : ExtraMap) (H : NXGraph),
      (m.all fun kv => kv.1.isTup) = true →
      (∃ kv ∈ m, ¬ ∃ a b : Int, kv.1 = PyKey.tup [a, b]) →
      ∃ e, setEdgeAttrsNamed H name m = Except.error e ∧
        (e = unpackFewErrorMsg ∨ e = unpackManyErrorMsg)
  | [], _, _, hbad => absurd hbad (by simp)
  | (k, v) :: rest, H, hall, hbad => by
    have hrest : (rest.all fun kv => kv.1.isTup) = true := by
      simp only [List.all_cons, Bool.and_eq_true] at hall
      exact hall.2
    have hk : k.isTup = true := by
      simp only [List.all_cons, Bool.and_eq_true] at hall
      exact hall.1
    cases k with
    | int n => simp [PyKey.isTup] at hk
    | str s => simp [PyKey.isTup] at hk
    | tup l =>
      cases l with
      | nil => exact ⟨unpackFewErrorMsg, rfl, Or.inl rfl⟩
      | cons a l1 =>
        cases l1 with
        | nil => exact ⟨unpackFewErrorMsg, rfl, Or.inl rfl⟩
        | cons b l2 =>
          cases l2 with
          | nil =>
            obtain ⟨kv0, hmem, hnp⟩ := hbad
            rcases List.mem_cons.mp hmem with rfl | htail
            · exact absurd ⟨a, b, rfl⟩ hnp
            · exact setEdgeAttrsNamed_error_of_nonpair name rest
                (H.setEdgeAttr (.int a) (.int b) name (.num v))
                hrest ⟨kv0, htail, hnp⟩
          | cons c l3 => exact ⟨unpackManyErrorMsg, rfl, Or.inr rfl⟩

/-! Claim theorems. -/

/-- C1: for every bias dict `h` and quadratic dict `J`, `ising_graph(h, J)`
(no keyword attributes) succeeds with the base graph; the node set contains
every key of `h` and both endpoints of every key of `J`, and the edge set,
viewed as unordered pairs, is exactly the key set of `J`. -/
theorem c1_ising_graph_node_edge_sets (h : LDict) (J : QDict) :
    ising_graph (.dict h) J [] = .ok (buildBase (.dict h) J) ∧
    (∀ kv ∈ h, kv.1 ∈ (buildBase (.dict h) J).nodes) ∧
    (∀ e ∈ J, e.1.1 ∈ (buildBase (.dict h) J).nodes ∧
      e.1.2 ∈ (buildBase (.dict h) J).nodes) ∧
    (∀ a b : PyKey, (buildBase (.dict h) J).hasEdge a b = true ↔
      (∃ e ∈ J, e.1 = (a, b)) ∨ (∃ e ∈ J, e.1 = (b, a))) := by
  refine ⟨rfl, ?_, ?_, ?_⟩
  · intro kv hkv
    rw [mem_buildBase_nodes]
    exact Or.inl (List.mem_map.mpr ⟨kv, hkv, rfl⟩)
  · intro e he
    constructor
    · rw [mem_buildBase_nodes]
      exact Or.inr ⟨e, he, Or.inl rfl⟩
    · rw [mem_buildBase_nodes]
      exact Or.inr ⟨e, he, Or.inr rfl⟩
  · intro a b
    exact hasEdge_buildBase (.dict h) J a b

/-- Witness for C1 at `h = {0: 2}`, `J = {(0, 1): 3}`. -/
theorem c1_ising_graph_node_edge_sets_witness :
    PyKey.int 0 ∈
      (buildBase (.dict [(PyKey.int 0, 2)]) [((PyKey.int 0, PyKey.int 1), 3)]).nodes ∧
    PyKey.int 1 ∈
      (buildBase (.dict [(PyKey.int 0, 2)]) [((PyKey.int 0, PyKey.int 1), 3)]).nodes ∧
    (buildBase (.dict [(PyKey.int 0, 2)]) [((PyKey.int 0, PyKey.int 1), 3)]).hasEdge
      (PyKey.int 1) (PyKey.int 0) = true :=
  ⟨(c1_ising_graph_node_edge_sets [(PyKey.int 0, 2)]
      [((PyKey.int 0, PyKey.int 1), 3)]).2.1 (PyKey.int 0, 2) (by decide),
   ((c1_ising_graph_node_edge_sets [(PyKey.int 0, 2)]
      [((PyKey.int 0, PyKey.int 1), 3)]).2.2.1 ((PyKey.int 0, PyKey.int 1), 3) (by decide)).2,
   ((c1_ising_graph_node_edge_sets [(PyKey.int 0, 2)]
      [((PyKey.int 0, PyKey.int 1), 3)]).2.2.2 (PyKey.int 1) (PyKey.int 0)).mpr
     (Or.inr ⟨((PyKey.int 0, PyKey.int 1), 3), by decide, rfl⟩)⟩

/-- C2: the node-color list returned by `color_map` is the positional image
of `node_list`, each node `v` getting
`linear_biases.get(v, 0) + quadratic_biases.get((v, v), 0)`; a node absent
from both maps gets color 0. -/
theorem c2_color_map_node_colors (nl : List PyKey) (el : List (PyKey × PyKey))
    (h : LDict) (q : QDict) :
    (color_map nl el h q).1 =
      nl.map (fun v => (dictLookup h v).getD 0 + (dictLookup q (v, v)).getD 0) ∧
    (∀ v : PyKey, dictLookup h v = none → dictLookup q (v, v) = none →
      node_color h q v = 0) := by
  constructor
  · unfold color_map
    dsimp only
    exact List.map_congr_left (fun v _ => node_color_getD h q v)
  · intro v hv hq
    rw [node_color_getD, hv, hq]
    rfl

/-- Witness for C2 at `node_list = [0, 7]`, `h = {0: 4}`,
`J = {(0, 0): 2}`: colors `[6, 0]`, and node 7 (absent everywhere) gets 0. -/
theorem c2_color_map_node_colors_witness :
    (color_map [PyKey.int 0, PyKey.int 7] [] [(PyKey.int 0, 4)]
      [((PyKey.int 0, PyKey.int 0), 2)]).1 = [6, 0] ∧
    node_color [(PyKey.int 0, 4)] [((PyKey.int 0, PyKey.int 0), 2)] (PyKey.int 7) = 0 := by
  constructor
  · rw [(c2_color_map_node_colors [PyKey.int 0, PyKey.int 7] []
      [(PyKey.int 0, 4)] [((PyKey.int 0, PyKey.int 0), 2)]).1]
    decide
  · exact (c2_color_map_node_colors [] [] [(PyKey.int 0, 4)]
      [((PyKey.int 0, PyKey.int 0), 2)]).2 (PyKey.int 7) (by decide) (by decide)

/-- C3: the edge-color list returned by `color_map` is the positional image
of `edge_list`, each `(u, v)` getting
`quadratic_biases.get((u, v), 0) + quadratic_biases.get((v, u), 0)` (both
orientations contribute when both are stored); an edge with neither
orientation stored gets color 0. -/
theorem c3_color_map_edge_colors (nl : List PyKey) (el : List (PyKey × PyKey))
    (h : LDict) (q : QDict) :
    (color_map nl el h q).2 =
      el.map (fun e =>
        (dictLookup q (e.1, e.2)).getD 0 + (dictLookup q (e.2, e.1)).getD 0) ∧
    (∀ u v : PyKey, dictLookup q (u, v) = none → dictLookup q (v, u) = none →
      edge_color q u v = 0) := by
  constructor
  · unfold color_map
    dsimp only
    exact List.map_congr_left (fun e _ => edge_color_getD q e.1 e.2)
  · intro u v h1 h2
    rw [edge_color_getD, h1, h2]
    rfl

/-- Witness for C3 at `edge_list = [(0, 1), (2, 3)]`,
`J = {(0, 1): 5, (1, 0): 7}`: colors `[12, 0]` (both orientations summed;
the unreferenced edge gets 0). -/
theorem c3_color_map_edge_colors_witness :
    (color_map [] [(PyKey.int 0, PyKey.int 1), (PyKey.int 2, PyKey.int 3)] []
      [((PyKey.int 0, PyKey.int 1), 5), ((PyKey.int 1, PyKey.int 0), 7)]).2 = [12, 0] ∧
    edge_color [((PyKey.int 0, PyKey.int 1), 5), ((PyKey.int 1, PyKey.int 0), 7)]
      (PyKey.int 2) (PyKey.int 3) = 0 := by
  constructor
  · rw [(c3_color_map_edge_colors []
      [(PyKey.int 0, PyKey.int 1), (PyKey.int 2, PyKey.int 3)] []
      [((PyKey.int 0, PyKey.int 1), 5), ((PyKey.int 1, PyKey.int 0), 7)]).1]
    decide
  · exact (c3_color_map_edge_colors [] [] []
      [((PyKey.int 0, PyKey.int 1), 5), ((PyKey.int 1, PyKey.int 0), 7)]).2
      (PyKey.int 2) (PyKey.int 3) (by decide) (by decide)

/-- C4 counterexample: the map `{"a": 1}` has every key a single node
identifier (a string label, a legal node id), so the claim says it is
attached as a node attribute and the build succeeds; `ising_graph` instead
raises, because its node test is `type(k) is int`, and the error it raises
is a plain `ValueError` whose fixed message does not contain the offending
attribute name. -/
theorem c4_counterexample :
    ising_graph (.dict []) [] [("tag", [(PyKey.str "a", 1)])] =
      .error attrKeysErrorMsg := rfl

/-- C4 as amended: keys of a keyword attribute map are classified by outer
runtime type only.  If every key is a tuple the map is handed to
`nx.set_edge_attributes`, which attaches pair keys as edge attributes and
raises an uncaught `ValueError` (from `(u, v)` tuple unpacking) at the first
key whose arity is not 2 — so the all-tuple branch succeeds exactly when
every tuple key is a pair.  Otherwise, if every key is an `int`, the map is
attached as node attributes; otherwise the build fails with a `ValueError`
carrying a fixed message that does not name the offending attribute. -/
theorem c4_attribute_key_dispatch (h : HParam) (J : QDict) (name : String)
    (m : ExtraMap) :
    ((m.all fun kv => kv.1.isTup) = true →
      ising_graph h J [(name, m)] = setEdgeAttrsNamed (buildBase h J) name m) ∧
    ((∀ kv ∈ m, ∃ a b : Int, kv.1 = PyKey.tup [a, b]) →
      ∃ G, ising_graph h J [(name, m)] = .ok G) ∧
    ((m.all fun kv => kv.1.isTup) = true →
      (∃ kv ∈ m, ¬ ∃ a b : Int, kv.1 = PyKey.tup [a, b]) →
      ∃ e, ising_graph h J [(name, m)] = .error e ∧
        (e = unpackFewErrorMsg ∨ e = unpackManyErrorMsg)) ∧
    ((m.all fun kv => kv.1.isTup) = false →
      (m.all fun kv => kv.1.isInt) = true →
      ising_graph h J [(name, m)] =
        .ok (setNodeAttrsNamed (buildBase h J) name m)) ∧
    ((m.all fun kv => kv.1.isTup) = false →
      (m.all fun kv => kv.1.isInt) = false →
      ising_graph h J [(name, m)] = .error attrKeysErrorMsg) := by
  refine ⟨?_, ?_, ?_, ?_, ?_⟩
  · intro h1
    show isingLoop (buildBase h J) [(name, m)] = _
    unfold isingLoop
    rw [h1]
    cases hse : setEdgeAttrsNamed (buildBase h J) name m with
    | ok G => simp [hse, isingLoop]
    | error e => simp [hse]
  · intro hp
    have hall : (m.all fun kv => kv.1.isTup) = true :=
      List.all_eq_true.mpr (fun kv hkv => by
        obtain ⟨a, b, hab⟩ := hp kv hkv
        rw [hab]
        rfl)
    obtain ⟨G, hG⟩ := setEdgeAttrsNamed_ok_of_pairs name m (buildBase h J) hp
    refine ⟨G, ?_⟩
    show isingLoop (buildBase h J) [(name, m)] = _
    unfold isingLoop
    rw [hall]
    simp [hG, isingLoop]
  · intro h1 hbad
    obtain ⟨e, he, hcases⟩ :=
      setEdgeAttrsNamed_error_of_nonpair name m (buildBase h J) h1 hbad
    refine ⟨e, ?_, hcases⟩
    show isingLoop (buildBase h J) [(name, m)] = _
    unfold isingLoop
    rw [h1]
    simp [he]
  · intro h1 h2
    show isingLoop (buildBase h J) [(name, m)] = _
    unfold isingLoop
    rw [h1, h2]
    rfl
  · intro h1 h2
    show isingLoop (buildBase h J) [(name, m)] = _
    unfold isingLoop
    rw [h1, h2]
    rfl

/-- Witness for C4 (amended): an all-pair-key map is attached as edge
attributes and succeeds, an all-tuple map containing the 3-tuple `(0, 1, 2)`
propagates the unpacking `ValueError` (matching what the edge-attribute
attachment itself returns), an all-int-key map is attached as node
attributes, and a mixed map raises the fixed classification `ValueError`. -/
theorem c4_attribute_key_dispatch_witness :
    ising_graph (.dict []) [((PyKey.int 0, PyKey.int 1), 1)]
      [("w", [(PyKey.tup [0, 1, 2], 5)])] =
      setEdgeAttrsNamed (buildBase (.dict []) [((PyKey.int 0, PyKey.int 1), 1)])
        "w" [(PyKey.tup [0, 1, 2], 5)] ∧
    (∃ G, ising_graph (.dict []) [((PyKey.int 0, PyKey.int 1), 1)]
      [("w", [(PyKey.tup [0, 1], 9)])] = .ok G) ∧
    (∃ e, ising_graph (.dict []) [] [("w", [(PyKey.tup [0, 1, 2], 5)])] =
      .error e ∧ (e = unpackFewErrorMsg ∨ e = unpackManyErrorMsg)) ∧
    ising_graph (.dict [(PyKey.int 0, 1)]) [] [("w", [(PyKey.int 0, 9)])] =
      .ok (setNodeAttrsNamed (buildBase (.dict [(PyKey.int 0, 1)]) [])
        "w" [(PyKey.int 0, 9)]) ∧
    ising_graph (.dict []) [] [("w", [(PyKey.str "a", 1), (PyKey.tup [0, 1], 2)])] =
      .error attrKeysErrorMsg :=
  ⟨(c4_attribute_key_dispatch (.dict []) [((PyKey.int 0, PyKey.int 1), 1)]
      "w" [(PyKey.tup [0, 1, 2], 5)]).1 (by decide),
   (c4_attribute_key_dispatch (.dict []) [((PyKey.int 0, PyKey.int 1), 1)]
      "w" [(PyKey.tup [0, 1], 9)]).2.1 (by
        intro kv hkv
        rw [List.mem_singleton] at hkv
        subst hkv
        exact ⟨0, 1, rfl⟩),
   (c4_attribute_key_dispatch (.dict []) []
      "w" [(PyKey.tup [0, 1, 2], 5)]).2.2.1 (by decide)
     ⟨(PyKey.tup [0, 1, 2], 5), by decide, by
        rintro ⟨a, b, hab⟩
        simp at hab⟩,
   (c4_attribute_key_dispatch (.dict [(PyKey.int 0, 1)]) []
      "w" [(PyKey.int 0, 9)]).2.2.2.1 (by decide) (by decide),
   (c4_attribute_key_dispatch (.dict []) []
      "w" [(PyKey.str "a", 1), (PyKey.tup [0, 1], 2)]).2.2.2.2 (by decide) (by decide)⟩

/-- C5: the code contradicts its own docstring on a list-valued `h`.  For
`h = [5]` the docstring (and the claim) promise node `0` carrying bias `5`;
`ising_graph` instead adds the bias value `5` itself as the node (there is
no node `0`), and `nx.set_node_attributes`, handed a list, stores the whole
list `[5]` as that node's `bias` attribute. -/
theorem c5_list_h_divergence :
    ising_graph (.list [5]) [] [] = .ok (buildBase (.list [5]) []) ∧
    (buildBase (.list [5]) []).nodes = [PyKey.int 5] ∧
    (buildBase (.list [5]) []).getNodeAttr (PyKey.int 5) "bias" =
      some (.listv [5]) ∧
    PyKey.int 0 ∉ (buildBase (.list [5]) []).nodes ∧
    (buildBase (.list [5]) []).getNodeAttr (PyKey.int 0) "bias" = none := by
  exact ⟨rfl, rfl, rfl, by decide, rfl⟩

/-- C6 counterexample: with `J = {(0, 0): 1}` and the self-loop `(0, 0)` in
`edge_list`, the self-loop bias does appear in the returned edge colors (as
`2`, counted once per orientation check), contradicting the claim that it
never appears in any edge-color entry for every choice of `edge_list`. -/
theorem c6_counterexample :
    (color_map [] [(PyKey.int 0, PyKey.int 0)] []
      [((PyKey.int 0, PyKey.int 0), 1)]).2 = [2] := by decide

/-- C6 as amended: the self-loop entry `(v, v)` of the quadratic map is
folded into the node color of `v`, and for every `edge_list` whose pairs all
have distinct endpoints the edge colors are unchanged when all self-loop
entries are removed from the quadratic map; only a self-loop pair placed in
`edge_list` itself exposes the self-loop bias in an edge color. -/
theorem c6_selfloop_folded_into_node_color (nl : List PyKey)
    (el : List (PyKey × PyKey)) (h : LDict) (q : QDict)
    (hel : ∀ e ∈ el, e.1 ≠ e.2) :
    (color_map nl el h q).2 =
      (color_map nl el h (q.filter (fun e => decide (e.1.1 ≠ e.1.2)))).2 ∧
    (color_map nl el h q).1 =
      nl.map (fun v => (dictLookup h v).getD 0 + (dictLookup q (v, v)).getD 0) := by
  constructor
  · unfold color_map
    dsimp only
    exact List.map_congr_left
      (fun e he => (edge_color_filter_selfloops q e.1 e.2 (hel e he)).symm)
  · unfold color_map
    dsimp only
    exact List.map_congr_left (fun v _ => node_color_getD h q v)

/-- Witness for C6 (amended) at `edge_list = [(0, 1)]`,
`J = {(0, 0): 3, (0, 1): 2}`: removing the self-loop entry leaves the edge
colors unchanged, while node 0's color includes the 3. -/
theorem c6_selfloop_folded_into_node_color_witness :
    (color_map [PyKey.int 0] [(PyKey.int 0, PyKey.int 1)] []
      [((PyKey.int 0, PyKey.int 0), 3), ((PyKey.int 0, PyKey.int 1), 2)]).2 =
      (color_map [PyKey.int 0] [(PyKey.int 0, PyKey.int 1)] []
        ([((PyKey.int 0, PyKey.int 0), 3), ((PyKey.int 0, PyKey.int 1), 2)].filter
          (fun e => decide (e.1.1 ≠ e.1.2)))).2 ∧
    (color_map [PyKey.int 0] [(PyKey.int 0, PyKey.int 1)] []
      [((PyKey.int 0, PyKey.int 0), 3), ((PyKey.int 0, PyKey.int 1), 2)]).1 =
      [PyKey.int 0].map (fun v => (dictLookup ([] : LDict) v).getD 0 +
        (dictLookup [((PyKey.int 0, PyKey.int 0), 3), ((PyKey.int 0, PyKey.int 1), 2)]
          (v, v)).getD 0) :=
  c6_selfloop_folded_into_node_color [PyKey.int 0] [(PyKey.int 0, PyKey.int 1)] []
    [((PyKey.int 0, PyKey.int 0), 3), ((PyKey.int 0, PyKey.int 1), 2)] (by decide)

/-- C7: the code contradicts the spec (and its own docstring) on the
fallback path.  On a graph whose nodes all carry `x` and `y` attributes the
positions are taken from them, but on `ising_graph({0: 1}, {})` — a
well-formed graph whose node lacks coordinates — `ising_layout` raises
`AttributeError` instead of degrading to the external layout heuristic: the
source calls `nx.random_layou`, a typo for `nx.random_layout`. -/
theorem c7_layout_divergence :
    ising_layout ⟨[PyKey.int 0], [],
      [(("x", PyKey.int 0), .num 2), (("y", PyKey.int 0), .num 3)], []⟩ =
      .ok [(PyKey.int 0, (.num 2, .num 3))] ∧
    ising_layout (buildBase (.dict [(PyKey.int 0, 1)]) []) =
      .error layoutErrorMsg := ⟨rfl, rfl⟩

/-- C8 counterexample: with biases provided but an empty node list (an empty
graph and no `nodelist` override), `draw_ising` raises `ValueError` from
`max()` over an empty sequence instead of producing the symmetric range the
claim promises for "every nodelist and edgelist (including empty ones)". -/
theorem c8_counterexample :
    draw_ising NXGraph.empty0 [(PyKey.int 0, 1)] [] none none none none none none =
      .error "max() arg is an empty sequence" := rfl

/-- C8 as amended: whenever biases are provided, the caller leaves all four
bounds unset, and both the node list and the edge list are nonempty, the
bounds handed to the renderer are the single symmetric interval
`[-vmag, vmag]` for nodes and edges alike, where `vmag` bounds every
node- and edge-color magnitude and is attained by one of them (i.e. it is
`max(max(|node_colors|), max(|edge_colors|))`); an empty node or edge list
instead raises `ValueError` from `max()`. -/
theorem c8_symmetric_shared_color_scale (H : NXGraph) (lin : LDict) (quad : QDict)
    (nl : List PyKey) (el : List (PyKey × PyKey))
    (hbias : lin ≠ [] ∨ quad ≠ []) (hnl : nl ≠ []) (hel : el ≠ []) :
    ∃ vmag : Int,
      draw_ising H lin quad (some nl) (some el) none none none none =
        .ok (some (-1 * vmag), some vmag, some (-1 * vmag), some vmag) ∧
      (∀ c ∈ (color_map nl el lin quad).1, |c| ≤ vmag) ∧
      (∀ c ∈ (color_map nl el lin quad).2, |c| ≤ vmag) ∧
      (vmag ∈ (color_map nl el lin quad).1.map (fun c => |c|) ∨
        vmag ∈ (color_map nl el lin quad).2.map (fun c => |c|)) := by
  obtain ⟨a, as, ha⟩ :
      ∃ a as, (color_map nl el lin quad).1.map (fun c => |c|) = a :: as := by
    cases nl with
    | nil => exact absurd rfl hnl
    | cons v vs => exact ⟨_, _, rfl⟩
  obtain ⟨b, bs, hb⟩ :
      ∃ b bs, (color_map nl el lin quad).2.map (fun c => |c|) = b :: bs := by
    cases el with
    | nil => exact absurd rfl hel
    | cons e es => exact ⟨_, _, rfl⟩
  refine ⟨max (as.foldl max a) (bs.foldl max b), ?_, ?_, ?_, ?_⟩
  · unfold draw_ising
    rw [if_pos hbias]
    dsimp only [Option.getD]
    rw [ha, hb]
    rfl
  · intro c hcmem
    have hin : |c| ∈ a :: as :=
      ha ▸ List.mem_map.mpr ⟨c, hcmem, rfl⟩
    exact le_trans (pyMax_le a as _ hin) (le_max_left _ _)
  · intro c hcmem
    have hin : |c| ∈ b :: bs :=
      hb ▸ List.mem_map.mpr ⟨c, hcmem, rfl⟩
    exact le_trans (pyMax_le b bs _ hin) (le_max_right _ _)
  · rcases max_choice (as.foldl max a) (bs.foldl max b) with hm | hm
    · rw [hm]
      exact Or.inl (ha.symm ▸ pyMax_mem a as)
    · rw [hm]
      exact Or.inr (hb.symm ▸ pyMax_mem b bs)

/-- Witness for C8 (amended) at `h = {0: 3}`, `nodelist = [0]`,
`edgelist = [(0, 1)]` on the empty graph. -/
theorem c8_symmetric_shared_color_scale_witness :
    ∃ vmag : Int,
      draw_ising NXGraph.empty0 [(PyKey.int 0, 3)] []
        (some [PyKey.int 0]) (some [(PyKey.int 0, PyKey.int 1)])
        none none none none =
        .ok (some (-1 * vmag), some vmag, some (-1 * vmag), some vmag) ∧
      (∀ c ∈ (color_map [PyKey.int 0] [(PyKey.int 0, PyKey.int 1)]
        [(PyKey.int 0, 3)] []).1, |c| ≤ vmag) ∧
      (∀ c ∈ (color_map [PyKey.int 0] [(PyKey.int 0, PyKey.int 1)]
        [(PyKey.int 0, 3)] []).2, |c| ≤ vmag) ∧
      (vmag ∈ (color_map [PyKey.int 0] [(PyKey.int 0, PyKey.int 1)]
        [(PyKey.int 0, 3)] []).1.map (fun c => |c|) ∨
        vmag ∈ (color_map [PyKey.int 0] [(PyKey.int 0, PyKey.int 1)]
          [(PyKey.int 0, 3)] []).2.map (fun c => |c|)) :=
  c8_symmetric_shared_color_scale NXGraph.empty0 [(PyKey.int 0, 3)] []
    [PyKey.int 0] [(PyKey.int 0, PyKey.int 1)]
    (Or.inl (by decide)) (by decide) (by decide)

/-- C9: `color_map` and `ising_graph` are pure.  In the state-threaded
embeddings, where every primitive operation the source performs on an input
container is an explicit state transformer, both functions hand back every
input container exactly as received (no mutation of the bias maps, the node
and edge lists, or the keyword attribute maps), and their results coincide
with the direct functional embeddings of the same arguments — two calls on
identical inputs return identical results, with no hidden state. -/
theorem c9_no_mutation_deterministic (nl : List PyKey) (el : List (PyKey × PyKey))
    (h : LDict) (q : QDict) (hp : HParam) (J : QDict)
    (kwargs : List (String × ExtraMap)) :
    color_mapSt nl el h q = (color_map nl el h q, (nl, el, h, q)) ∧
    ising_graphSt hp J kwargs = (ising_graph hp J kwargs, (hp, J, kwargs)) :=
  ⟨color_mapSt_eq nl el h q, ising_graphSt_eq hp J kwargs⟩

/-- C10: an empty keyword attribute map passes the vacuously-true all-tuple
test, so it is dispatched to the edge-attribute branch, attaches nothing
(the graph is exactly the one built without the entry), and the build
succeeds. -/
theorem c10_empty_attr_map (h : HParam) (J : QDict) (name : String)
    (rest : List (String × ExtraMap)) :
    (([] : ExtraMap).all fun kv => kv.1.isTup) = true ∧
    ising_graph h J ((name, []) :: rest) = ising_graph h J rest ∧
    ising_graph h J [(name, [])] = .ok (buildBase h J) := by
  refine ⟨rfl, ?_, rfl⟩
  show isingLoop (buildBase h J) ((name, []) :: rest) =
    isingLoop (buildBase h J) rest
  rfl
